import Mathlib

/-!
Shallow embedding of the PyCliTetris engine (src/PyCliTetris.py).

Python lists are modelled as Lean lists; Python indexing (which accepts
negative indices by wrapping from the end and raises IndexError otherwise)
is modelled by the `pyIdx` / `pyGet` / `pySet` / `pyPop` helpers returning
`Option` (`none` = IndexError).  Cells of the playfield hold `Option Nat`:
`none` models the Python `False` (empty) and `some tag` models a stored
ColorChar (always truthy in Python), with the display colour abstracted to
a numeric tag (colour darkening is cosmetic and does not affect occupancy).
-/

namespace PyCliTetris

/-- Python index resolution for a list of length n: a non-negative index i
is valid when i < n; a negative index wraps to n + i when -n ≤ i; anything
else raises IndexError (`none`). -/
def pyIdx (n : Nat) (i : Int) : Option Nat :=
  if 0 ≤ i then
    if i < (n : Int) then some i.toNat else none
  else
    if -(n : Int) ≤ i then some ((n : Int) + i).toNat else none

/-- Python read xs[i]. -/
def pyGet (xs : List α) (i : Int) : Option α :=
  (pyIdx xs.length i).bind fun j => xs.get? j

/-- Python write xs[i] = v, returning the updated list. -/
def pySet (xs : List α) (i : Int) (v : α) : Option (List α) :=
  (pyIdx xs.length i).map fun j => xs.set j v

/-- Python xs.pop(i), returning the list without the element at i. -/
def pyPop (xs : List α) (i : Int) : Option (List α) :=
  (pyIdx xs.length i).map fun j => xs.eraseIdx j

/-- The 2D integer vector of src lines 10-46 (class Vector). -/
@[ext]
structure Vector where
  x : Int
  y : Int
deriving DecidableEq

/-- Vector.add_xy (src line 19). -/
def Vector.add_xy (self : Vector) (dx dy : Int) : Vector :=
  ⟨self.x + dx, self.y + dy⟩

/-- Vector.add_vector (src line 22). -/
def Vector.add_vector (self v : Vector) : Vector :=
  self.add_xy v.x v.y

/-- Vector.add_x (src line 25). -/
def Vector.add_x (self : Vector) (dx : Int) : Vector :=
  self.add_xy dx 0

/-- Vector.add_y (src line 28). -/
def Vector.add_y (self : Vector) (dy : Int) : Vector :=
  self.add_xy 0 dy

/-- Vector.rotate90 (src lines 31-40): subtract the anchor, apply
(x, y) -> (-y, x), add the anchor back. -/
def Vector.rotate90 (self anchor : Vector) : Vector :=
  let xRotated := self.x - anchor.x
  let yRotated := self.y - anchor.y
  let xRotated2 := -yRotated
  let yRotated2 := xRotated
  ⟨xRotated2 + anchor.x, yRotated2 + anchor.y⟩

/-- Vector.scale (src lines 42-46). -/
def Vector.scale (self : Vector) (xScale yScale : Int) : Vector :=
  ⟨self.x * xScale, self.y * yScale⟩

/-- Vectors.translate_all (src lines 56-60): the loop rebuilds the list in
order, translating each element. -/
def translate_all (vectors : List Vector) (translation : Vector) : List Vector :=
  vectors.map fun v => v.add_vector translation

/-- Vectors.get_rotated90_around_anchor (src lines 62-73).  The loop keeps
the first element (the anchor, the flag starts as False and a Vector object
is always truthy) and rotates every later element about it, preserving
order. -/
def get_rotated90_around_anchor (vectors : List Vector) : List Vector :=
  match vectors with
  | [] => []
  | anchor :: rest => anchor :: rest.map fun v => v.rotate90 anchor

/-- Score.add (src lines 238-250): the if/elif ladder; any value outside
0..4 raises ValueError before the score is touched (`none`). -/
def Score.add (value : Nat) (lines : Int) : Option Nat :=
  if lines = 4 then some (value + 800)
  else if lines = 3 then some (value + 500)
  else if lines = 2 then some (value + 300)
  else if lines = 1 then some (value + 100)
  else if lines = 0 then some value
  else none

/-- Folding Score.add over a list of award calls; `none` as soon as one
call raises. -/
def awardSeq (value : Nat) : List Int → Option Nat
  | [] => some value
  | l :: ls => (Score.add value l).bind fun v => awardSeq v ls

/-- A playfield cell: `none` is the initial False (empty), `some tag` is a
stored ColorChar (truthy). -/
abbrev Cell := Option Nat

/-- Playfield state (src lines 265-271): size, content matrix and the
topped_out flag; screen/location/score references are rendering plumbing
(the score is threaded explicitly through `land`). -/
structure Playfield where
  size_x : Nat
  size_y : Nat
  playfieldContent : List (List Cell)
  topped_out : Bool
deriving DecidableEq

/-- Playfield.__init__ content: a size_y by size_x matrix of False, with
topped_out = False. -/
def Playfield.init (w h : Nat) : Playfield :=
  ⟨w, h, List.replicate h (List.replicate w (none : Cell)), false⟩

/-- The emptyRowGenerator of src line 323. -/
def emptyRow (w : Nat) : List Cell :=
  List.replicate w none

/-- One marking step of the land loop (src line 308):
playfieldContent[v.y][v.x] = colorChar. -/
def setCell (content : List (List Cell)) (v : Vector) (tag : Nat) :
    Option (List (List Cell)) :=
  (pyIdx content.length v.y).bind fun j =>
    (content.get? j).bind fun row =>
      (pyIdx row.length v.x).bind fun i =>
        some (content.set j (row.set i (some tag)))

/-- Marking every landed vector in order (src lines 307-308). -/
def markAll (content : List (List Cell)) (vectors : List Vector) (tag : Nat) :
    Option (List (List Cell)) :=
  match vectors with
  | [] => some content
  | v :: vs => (setCell content v tag).bind fun c => markAll c vs tag

/-- The rowsToScan accumulation (src lines 309-310): collect each vector's
y the first time it is seen. -/
def collectRowsGo (acc : List Int) : List Vector → List Int
  | [] => acc
  | v :: vs => if v.y ∈ acc then collectRowsGo acc vs else collectRowsGo (acc ++ [v.y]) vs

/-- Distinct rows touched by the landed vectors, in first-occurrence order. -/
def collectRows (vectors : List Vector) : List Int :=
  collectRowsGo [] vectors

/-- rowsToScan after the sort() of src line 312: touched rows in ascending
order. -/
def rowsToScanOf (vectors : List Vector) : List Int :=
  List.insertionSort (fun a b : Int => a ≤ b) (collectRows vectors)

/-- The hitCount loop of src lines 315-318: number of truthy cells in row
rowToScan of the content (out-of-range rows, unreachable after a successful
marking pass, count as 0). -/
def hitCount (content : List (List Cell)) (rowToScan : Int) : Nat :=
  ((pyGet content rowToScan).getD []).countP fun c => c.isSome

/-- rowsToRemove (src lines 313-321): the touched rows, ascending, whose
occupied count is at least the playfield width. -/
def rowsToRemoveOf (w : Nat) (content : List (List Cell)) (vectors : List Vector) :
    List Int :=
  (rowsToScanOf vectors).filter fun r => decide (w ≤ hitCount content r)

/-- The pop loop of src lines 324-325, applied to an explicit index list
(the code passes rowsToRemove reversed, i.e. descending). -/
def popRows (content : List (List Cell)) : List Int → Option (List (List Cell))
  | [] => some content
  | r :: rs => (pyPop content r).bind fun c => popRows c rs

/-- Playfield.land (src lines 304-334): mark the landed cells, find the
full touched rows, pop them in descending order, insert as many empty rows
at the top, re-evaluate topped_out from the new top row, and award the
score.  The colorChar.shift_to_gray() call only darkens the display colour
and is dropped from the occupancy model. -/
def Playfield.land (pf : Playfield) (score : Nat) (vectors : List Vector)
    (tag : Nat) : Option (Playfield × Nat) :=
  (markAll pf.playfieldContent vectors tag).bind fun content =>
    (popRows content (rowsToRemoveOf pf.size_x content vectors).reverse).bind
      fun content2 =>
        let content3 := List.replicate (rowsToRemoveOf pf.size_x content vectors).length
          (emptyRow pf.size_x) ++ content2
        content3.head?.bind fun topRow =>
          (Score.add score ((rowsToRemoveOf pf.size_x content vectors).length : Int)).map
            fun score2 =>
              (⟨pf.size_x, pf.size_y, content3,
                pf.topped_out || topRow.any fun c => c.isSome⟩, score2)

/-- A Python read playfieldContent[y][x]. -/
def pyCell (content : List (List Cell)) (y x : Int) : Option Cell :=
  (pyGet content y).bind fun row => pyGet row x

/-- Truthiness of the cell read playfieldContent[y][x], false when the read
raises; the occupancy test the piece validations perform. -/
def occ (content : List (List Cell)) (y x : Int) : Bool :=
  match pyCell content y x with
  | some c => c.isSome
  | none => false

/-- The seven tetromino kinds (the Tetromino_* subclasses of src lines
410-474). -/
inductive Kind
  | I
  | J
  | L
  | O
  | S
  | Z
  | T
deriving DecidableEq

/-- Abstraction of each subclass's color_char() (src): only the identity of
the tag matters for the model, not the RGB values. -/
def colorCode : Kind → Nat
  | .I => 0
  | .J => 1
  | .L => 2
  | .O => 3
  | .S => 4
  | .Z => 5
  | .T => 6

/-- Active piece state (src lines 348-351): its cell positions (the
Vectors wrapper is flattened to a list), the landed flag, and its kind
(standing in for the Python subclass, used for rotation dispatch and the
display tag). -/
structure Tetromino where
  position : List Vector
  landed : Bool
  kind : Kind
deriving DecidableEq

/-- Whole simulation state: the playfield the piece references, the score
object's value, and the active piece. -/
structure GameSt where
  playfield : Playfield
  score : Nat
  piece : Tetromino
deriving DecidableEq

/-- The shared per-cell validation of _move_horizontally (src lines
369-375) and _rotate (src lines 377-383): for each candidate cell, reject
(`some false`) when its x is outside [0, width) or when
playfieldContent[y][x] is truthy; `none` models the IndexError the row
lookup raises when y is outside [-height, height); `some true` means every
cell passed. -/
def checkCells (w : Nat) (content : List (List Cell)) : List Vector → Option Bool
  | [] => some true
  | b :: rest =>
    if (w : Int) ≤ b.x ∨ b.x < 0 then some false
    else
      match pyCell content b.y b.x with
      | none => none
      | some c => if c.isSome then some false else checkCells w content rest

/-- Tetromino._move_horizontally (src lines 369-375): validate every block
at (x + dx, y); on any failure return with the position unchanged,
otherwise translate the whole piece by (dx, 0). -/
def moveHorizontally (st : GameSt) (dx : Int) : Option GameSt :=
  match checkCells st.playfield.size_x st.playfield.playfieldContent
      (st.piece.position.map fun b => ⟨b.x + dx, b.y⟩) with
  | none => none
  | some false => some st
  | some true =>
    some { st with piece := { st.piece with
      position := translate_all st.piece.position ⟨dx, 0⟩ } }

/-- Tetromino._rotate (src lines 377-383): validate the rotated point set
cell by cell; keep the current orientation on any failure, otherwise adopt
the rotated set. -/
def rotateGeneric (st : GameSt) : Option GameSt :=
  let rotated := get_rotated90_around_anchor st.piece.position
  match checkCells st.playfield.size_x st.playfield.playfieldContent rotated with
  | none => none
  | some false => some st
  | some true => some { st with piece := { st.piece with position := rotated } }

/-- Rotation dispatch: Tetromino_O._rotate (src lines 443-444) overrides
the base _rotate with pass, every other kind uses the generic rotation. -/
def rotateStep (st : GameSt) : Option GameSt :=
  match st.piece.kind with
  | .O => some st
  | _ => rotateGeneric st

/-- The gravity blocking scan of src lines 393-394: `some false` when some
block, taken in order, has y + 1 >= height or a truthy destination cell
(the or short-circuits, so no row lookup happens when y + 1 >= height);
`none` when a lookup raises; `some true` when every block can move down. -/
def checkGravity (h : Nat) (content : List (List Cell)) : List Vector → Option Bool
  | [] => some true
  | b :: rest =>
    if (h : Int) ≤ b.y + 1 then some false
    else
      match pyCell content (b.y + 1) b.x with
      | none => none
      | some c => if c.isSome then some false else checkGravity h content rest

/-- Tetromino._do_gravity (src lines 389-399): no-op when already landed;
when some block is blocked below, set landed and push the current cells
into the playfield via land; otherwise translate the piece down one row. -/
def doGravity (st : GameSt) : Option GameSt :=
  if st.piece.landed then some st
  else
    match checkGravity st.playfield.size_y st.playfield.playfieldContent
        st.piece.position with
    | none => none
    | some false =>
      (st.playfield.land st.score st.piece.position (colorCode st.piece.kind)).map
        fun p => ⟨p.1, p.2, { st.piece with landed := true }⟩
    | some true =>
      some { st with piece := { st.piece with
        position := translate_all st.piece.position ⟨0, 1⟩ } }

/-- Fuel-indexed unfolding of the while loop of _drop (src lines 385-387);
`none` models both an exception inside a gravity step and a diverging loop
(the loop diverges on an empty position list, which no spawned piece has). -/
def dropGo : Nat → GameSt → Option GameSt
  | 0, _ => none
  | fuel + 1, st =>
    if st.piece.landed then some st
    else (doGravity st).bind fun st2 => dropGo fuel st2

/-- Fuel sufficient for the drop loop: every non-landing gravity step moves
each block one row down, so the loop ends within height + (depth of the
highest block above row 0) steps; two extra steps cover observing the
landed flag. -/
def dropFuelFor (st : GameSt) : Nat :=
  st.playfield.size_y + 2 +
    (st.piece.position.map fun v => (-v.y).toNat).foldr max 0

/-- Tetromino._drop (src lines 385-387). -/
def drop (st : GameSt) : Option GameSt :=
  dropGo (dropFuelFor st) st

/-- Iterating whole gravity steps, for stating that drop is gravity
repeated until landed. -/
def iterGrav : Nat → GameSt → Option GameSt
  | 0, st => some st
  | n + 1, st => (doGravity st).bind fun st2 => iterGrav n st2

/-- Iterating the rotate command, for stating the O-piece fixedness. -/
def iterRot : Nat → GameSt → Option GameSt
  | 0, st => some st
  | n + 1, st => (rotateStep st).bind fun st2 => iterRot n st2

/-- Tetromino.process (src lines 353-367): no-op when landed; otherwise
horizontal move with the taken dx, then rotate when the up key was taken,
then drop-and-return when the down key was taken, then one gravity step
when the tick owes one. -/
def process (st : GameSt) (should_do_gravity : Bool) (dx : Int)
    (up down : Bool) : Option GameSt :=
  if st.piece.landed then some st
  else
    (moveHorizontally st dx).bind fun st1 =>
      (if up then rotateStep st1 else some st1).bind fun st2 =>
        if down then drop st2
        else if should_do_gravity then doGravity st2
        else some st2

/-- The full bag of src lines 481-484, as kinds (each Tetromino_* is
constructed fresh on refill; only its kind matters to the dispenser). -/
def newBag : List Kind :=
  [.I, .J, .L, .O, .S, .Z, .T]

/-- SevenBag.get_tetromino (src lines 486-493) with the randrange result
passed in as the index choice: pop the chosen piece, and refill the bag to
all seven kinds when the pop emptied it; an index outside the bag is not a
possible randrange result and maps to `none`. -/
def getTetromino (bag : List Kind) (i : Nat) : Option (Kind × List Kind) :=
  if h : i < bag.length then
    let rest := bag.eraseIdx i
    some (bag.get ⟨i, h⟩, if rest.isEmpty then newBag else rest)
  else none

/-- Drawing a sequence of pieces for a sequence of index choices,
returning the drawn kinds in order and the final bag. -/
def drawAll (bag : List Kind) : List Nat → Option (List Kind × List Kind)
  | [] => some ([], bag)
  | i :: is =>
    (getTetromino bag i).bind fun p =>
      (drawAll p.2 is).map fun q => (p.1 :: q.1, q.2)

theorem rotate90_four (v a : Vector) :
    (((v.rotate90 a).rotate90 a).rotate90 a).rotate90 a = v := by
  apply Vector.ext <;> simp [Vector.rotate90]

theorem rotSet_four (ps : List Vector) :
    get_rotated90_around_anchor (get_rotated90_around_anchor
      (get_rotated90_around_anchor (get_rotated90_around_anchor ps))) = ps := by
  cases ps with
  | nil => rfl
  | cons a rest =>
    simp [get_rotated90_around_anchor, List.map_map, Function.comp_def, rotate90_four]

/-- C7: the point rotation computes exactly
(x2, y2) = (-(y-ay)+ax, (x-ax)+ay); the point-set rotation leaves the first
element (the anchor) unchanged, maps every other point through that formula
about the anchor, preserves order and length, and is a no-op on a
singleton. -/
theorem claim_C7_rotate90_spec :
    (∀ v a : Vector, v.rotate90 a = ⟨-(v.y - a.y) + a.x, (v.x - a.x) + a.y⟩)
    ∧ (∀ (a : Vector) (rest : List Vector),
        get_rotated90_around_anchor (a :: rest) = a :: rest.map fun p => p.rotate90 a)
    ∧ (∀ ps : List Vector, (get_rotated90_around_anchor ps).length = ps.length)
    ∧ (∀ ps : List Vector, ps ≠ [] →
        (get_rotated90_around_anchor ps).head? = ps.head?)
    ∧ (∀ p : Vector, get_rotated90_around_anchor [p] = [p]) := by
  refine ⟨fun v a => rfl, fun a rest => rfl, fun ps => ?_, fun ps hne => ?_, fun p => rfl⟩
  · cases ps <;> simp [get_rotated90_around_anchor]
  · cases ps with
    | nil => exact absurd rfl hne
    | cons a rest => rfl

/-- Witness for C7 at a concrete two-point set. -/
theorem claim_C7_rotate90_spec_witness :
    ([(⟨1, 2⟩ : Vector), ⟨3, 4⟩] ≠ [])
    ∧ (get_rotated90_around_anchor [(⟨1, 2⟩ : Vector), ⟨3, 4⟩]).head?
        = [(⟨1, 2⟩ : Vector), ⟨3, 4⟩].head? :=
  ⟨by decide, claim_C7_rotate90_spec.2.2.2.1 [⟨1, 2⟩, ⟨3, 4⟩] (by decide)⟩

/-- C8: applying the anchor-relative rotation four times returns the
original point set, and the O kind's rotate operation is a no-op, so an O
piece's point set is fixed under any number of rotate commands. -/
theorem claim_C8_rotation_cycle :
    (∀ ps : List Vector,
      get_rotated90_around_anchor (get_rotated90_around_anchor
        (get_rotated90_around_anchor (get_rotated90_around_anchor ps))) = ps)
    ∧ (∀ st : GameSt, st.piece.kind = Kind.O → rotateStep st = some st)
    ∧ (∀ (st : GameSt) (n : Nat), st.piece.kind = Kind.O → iterRot n st = some st) := by
  have hO : ∀ st : GameSt, st.piece.kind = Kind.O → rotateStep st = some st := by
    intro st h
    simp [rotateStep, h]
  refine ⟨rotSet_four, hO, fun st n h => ?_⟩
  induction n with
  | zero => rfl
  | succ n ih => simp [iterRot, hO st h, ih]

/-- Witness for C8: a concrete O piece, rotated three times, is unchanged. -/
theorem claim_C8_rotation_cycle_witness :
    (GameSt.mk (Playfield.init 4 4) 0 ⟨[⟨2, 0⟩, ⟨3, 0⟩, ⟨2, 1⟩, ⟨3, 1⟩], false, Kind.O⟩).piece.kind = Kind.O
    ∧ iterRot 3 ⟨Playfield.init 4 4, 0, ⟨[⟨2, 0⟩, ⟨3, 0⟩, ⟨2, 1⟩, ⟨3, 1⟩], false, Kind.O⟩⟩
        = some ⟨Playfield.init 4 4, 0, ⟨[⟨2, 0⟩, ⟨3, 0⟩, ⟨2, 1⟩, ⟨3, 1⟩], false, Kind.O⟩⟩ :=
  ⟨rfl, claim_C8_rotation_cycle.2.2 _ 3 rfl⟩

theorem scoreAdd_mono (v : Nat) (n : Int) (v2 : Nat) (h : Score.add v n = some v2) :
    v ≤ v2 := by
  simp only [Score.add] at h
  split_ifs at h <;> simp_all <;> omega

/-- C5: the scoring award adds exactly 0/100/300/500/800 for 0/1/2/3/4
cleared lines, signals an invalid-argument error (leaving the score
unchanged) for every other argument, and is monotonically non-decreasing
across every sequence of successful calls. -/
theorem claim_C5_score_add (v : Nat) :
    Score.add v 0 = some v
    ∧ Score.add v 1 = some (v + 100)
    ∧ Score.add v 2 = some (v + 300)
    ∧ Score.add v 3 = some (v + 500)
    ∧ Score.add v 4 = some (v + 800)
    ∧ (∀ n : Int, n < 0 ∨ 4 < n → Score.add v n = none)
    ∧ (∀ (n : Int) (v2 : Nat), Score.add v n = some v2 → v ≤ v2)
    ∧ (∀ (ls : List Int) (v2 : Nat), awardSeq v ls = some v2 → v ≤ v2) := by
  refine ⟨by simp [Score.add], by simp [Score.add], by simp [Score.add],
    by simp [Score.add], by simp [Score.add], fun n h => ?_,
    fun n v2 h => scoreAdd_mono v n v2 h, fun ls => ?_⟩
  · simp only [Score.add]
    split_ifs <;> first | omega | rfl
  · induction ls generalizing v with
    | nil =>
      intro v2 h
      simp only [awardSeq, Option.some_inj] at h
      omega
    | cons l ls ih =>
      intro v2 h
      simp only [awardSeq] at h
      match hadd : Score.add v l with
      | none => rw [hadd] at h; cases h
      | some v1 =>
        rw [hadd] at h
        exact le_trans (scoreAdd_mono v l v1 hadd) (ih v1 v2 h)

/-- Witness for C5 at score 10: awarding 5 lines is rejected, a successful
run of awards only grows the score. -/
theorem claim_C5_score_add_witness :
    ((5 : Int) < 0 ∨ 4 < (5 : Int)) ∧ Score.add 10 5 = none
    ∧ awardSeq 10 [2, 0, 4] = some 1110 ∧ 10 ≤ 1110 :=
  ⟨by decide, (claim_C5_score_add 10).2.2.2.2.2.1 5 (by decide), by decide,
    (claim_C5_score_add 10).2.2.2.2.2.2.2 [2, 0, 4] 1110 (by decide)⟩

theorem perm_get_cons_eraseIdx (l : List Kind) (i : Nat) (h : i < l.length) :
    l.Perm (l.get ⟨i, h⟩ :: l.eraseIdx i) := by
  rw [List.eraseIdx_eq_take_drop_succ, List.get_eq_getElem]
  conv_lhs => rw [← List.take_append_drop i l, List.drop_eq_getElem_cons h]
  exact List.perm_middle

theorem count_newBag (k : Kind) : newBag.count k = 1 := by
  cases k <;> rfl

/-- Draining a bag completely (as many draws as it has pieces) yields its
contents in some order and leaves the refilled bag. -/
theorem drawAll_drain :
    ∀ (cs : List Nat) (bag ks bagF : List Kind), bag ≠ [] →
      cs.length = bag.length → drawAll bag cs = some (ks, bagF) →
      ks.Perm bag ∧ bagF = newBag := by
  intro cs
  induction cs with
  | nil =>
    intro bag ks bagF hne hlen _
    exact absurd (List.length_eq_zero.mp hlen.symm) hne
  | cons i is ih =>
    intro bag ks bagF hne hlen hd
    simp only [drawAll, getTetromino] at hd
    split at hd
    case isFalse => cases hd
    case isTrue hi =>
      simp only [Option.some_bind] at hd
      by_cases hre : (bag.eraseIdx i).isEmpty
      · have hrest : bag.eraseIdx i = [] := List.isEmpty_iff.mp hre
        have his : is = [] := by
          have h1 : (bag.eraseIdx i).length = bag.length - 1 :=
            List.length_eraseIdx_of_lt hi
          rw [hrest] at h1
          simp only [List.length_nil] at h1
          simp only [List.length_cons] at hlen
          have : is.length = 0 := by omega
          exact List.length_eq_zero.mp this
        subst his
        rw [hrest] at hd
        simp only [List.isEmpty_nil, if_pos, drawAll, Option.map_some',
          Option.some_inj, Prod.mk.injEq] at hd
        obtain ⟨hks, hbagF⟩ := hd
        constructor
        · rw [← hks]
          have hp := perm_get_cons_eraseIdx bag i hi
          rw [hrest] at hp
          exact hp.symm
        · exact hbagF.symm
      · have hrest : bag.eraseIdx i ≠ [] := fun hc => hre (by rw [hc]; rfl)
        rw [if_neg hre] at hd
        match hq : drawAll (bag.eraseIdx i) is with
        | none => rw [hq] at hd; cases hd
        | some q =>
          rw [hq] at hd
          simp only [Option.map_some', Option.some_inj, Prod.mk.injEq] at hd
          obtain ⟨hks, hbagF⟩ := hd
          have hlen2 : is.length = (bag.eraseIdx i).length := by
            rw [List.length_eraseIdx_of_lt hi]
            simp only [List.length_cons] at hlen
            omega
          obtain ⟨hperm, hbag⟩ := ih (bag.eraseIdx i) q.1 q.2 hrest hlen2 hq
          refine ⟨?_, by rw [← hbagF]; exact hbag⟩
          rw [← hks]
          exact (hperm.cons (bag.get ⟨i, hi⟩)).trans
            (perm_get_cons_eraseIdx bag i hi).symm

/-- Splitting a draw sequence: drawing cs1 ++ cs2 is drawing cs1 and then
cs2 from the intermediate bag. -/
theorem drawAll_append :
    ∀ (cs1 cs2 : List Nat) (bag ks bagF : List Kind),
      drawAll bag (cs1 ++ cs2) = some (ks, bagF) →
      ∃ ks1 bag1 ks2, drawAll bag cs1 = some (ks1, bag1)
        ∧ drawAll bag1 cs2 = some (ks2, bagF) ∧ ks = ks1 ++ ks2 := by
  intro cs1
  induction cs1 with
  | nil =>
    intro cs2 bag ks bagF hd
    exact ⟨[], bag, ks, rfl, hd, rfl⟩
  | cons i is ih =>
    intro cs2 bag ks bagF hd
    simp only [List.cons_append, drawAll, List.append_eq] at hd
    match hg : getTetromino bag i with
    | none => rw [hg] at hd; cases hd
    | some p =>
      rw [hg] at hd
      simp only [Option.some_bind] at hd
      match hq : drawAll p.2 (is ++ cs2) with
      | none => rw [hq] at hd; cases hd
      | some q =>
        rw [hq] at hd
        simp only [Option.map_some', Option.some_inj, Prod.mk.injEq] at hd
        obtain ⟨hks, hbagF⟩ := hd
        obtain ⟨ks1, bag1, ks2, h1, h2, h3⟩ := ih cs2 p.2 q.1 q.2 hq
        refine ⟨p.1 :: ks1, bag1, ks2, ?_, by rw [hbagF] at h2; exact h2, ?_⟩
        · simp only [drawAll, hg, Option.some_bind, h1, Option.map_some']
        · rw [← hks, h3]
          rfl

theorem newBag_length : newBag.length = 7 := rfl

theorem newBag_ne_nil : newBag ≠ [] := by decide

/-- C6: with the random index choices universally quantified (the claim's
reading of uniform choice), every draw takes a kind that is in the bag and
removes it, the bag is refilled to all seven kinds exactly when the
emptying draw empties it, and every window of 7 draws from a refill
boundary contains each kind exactly once (and ends back at a full bag). -/
theorem claim_C6_seven_bag (m : Nat) :
    ∀ (cs : List Nat) (ks bagF : List Kind), cs.length = 7 * m →
      drawAll newBag cs = some (ks, bagF) →
      (bagF = newBag
      ∧ (∀ j, j < m → ∀ k : Kind, ((ks.drop (7 * j)).take 7).count k = 1)
      ∧ (∀ (bag : List Kind) (i : Nat) (k : Kind) (bag2 : List Kind),
          getTetromino bag i = some (k, bag2) →
          ∃ hi : i < bag.length, k = bag.get ⟨i, hi⟩
            ∧ (bag.eraseIdx i = [] → bag2 = newBag)
            ∧ (bag.eraseIdx i ≠ [] → bag2 = bag.eraseIdx i))) := by
  have hget : ∀ (bag : List Kind) (i : Nat) (k : Kind) (bag2 : List Kind),
      getTetromino bag i = some (k, bag2) →
      ∃ hi : i < bag.length, k = bag.get ⟨i, hi⟩
        ∧ (bag.eraseIdx i = [] → bag2 = newBag)
        ∧ (bag.eraseIdx i ≠ [] → bag2 = bag.eraseIdx i) := by
    intro bag i k bag2 hg
    simp only [getTetromino] at hg
    split at hg
    case isFalse => cases hg
    case isTrue hi =>
      simp only [Option.some_inj, Prod.mk.injEq] at hg
      obtain ⟨hk, hb⟩ := hg
      refine ⟨hi, hk.symm, fun he => ?_, fun hne => ?_⟩
      · rw [← hb, he]
        simp
      · rw [← hb]
        simp [List.isEmpty_eq_true, hne]
  induction m with
  | zero =>
    intro cs ks bagF hlen hd
    have : cs = [] := List.length_eq_zero.mp (by omega)
    subst this
    simp only [drawAll, Option.some_inj, Prod.mk.injEq] at hd
    exact ⟨hd.2.symm, fun j hj => absurd hj (Nat.not_lt_zero j), hget⟩
  | succ m ih =>
    intro cs ks bagF hlen hd
    have hsplit : cs = cs.take 7 ++ cs.drop 7 := (List.take_append_drop 7 cs).symm
    rw [hsplit] at hd
    obtain ⟨ks1, bag1, ks2, h1, h2, h3⟩ := drawAll_append (cs.take 7) (cs.drop 7)
      newBag ks bagF hd
    have hlen1 : (cs.take 7).length = 7 := by
      rw [List.length_take]
      omega
    obtain ⟨hperm, hbag1⟩ := drawAll_drain (cs.take 7) newBag ks1 bag1
      newBag_ne_nil (by rw [hlen1, newBag_length]) h1
    subst hbag1
    have hlen2 : (cs.drop 7).length = 7 * m := by
      rw [List.length_drop]
      omega
    obtain ⟨hbagF, hwin, _⟩ := ih (cs.drop 7) ks2 bagF hlen2 h2
    have hks1len : ks1.length = 7 := by
      rw [hperm.length_eq, newBag_length]
    refine ⟨hbagF, fun j hj k => ?_, hget⟩
    cases j with
    | zero =>
      rw [h3]
      simp only [Nat.mul_zero, List.drop_zero]
      rw [List.take_left' hks1len]
      rw [hperm.count_eq k, count_newBag]
    | succ j =>
      rw [h3]
      have : 7 * (j + 1) = 7 + 7 * j := by ring
      rw [this, ← List.drop_drop, List.drop_left' hks1len]
      exact hwin j (by omega) k

/-- Witness for C6: always drawing index 0 for 14 draws cycles the bag
twice; the second window holds each kind once. -/
theorem claim_C6_seven_bag_witness :
    (List.replicate 14 0).length = 7 * 2
    ∧ drawAll newBag (List.replicate 14 0)
      = some ([Kind.I, Kind.J, Kind.L, Kind.O, Kind.S, Kind.Z, Kind.T,
               Kind.I, Kind.J, Kind.L, Kind.O, Kind.S, Kind.Z, Kind.T], newBag)
    ∧ (([Kind.I, Kind.J, Kind.L, Kind.O, Kind.S, Kind.Z, Kind.T,
         Kind.I, Kind.J, Kind.L, Kind.O, Kind.S, Kind.Z, Kind.T].drop (7 * 1)).take 7).count
        Kind.Z = 1 :=
  ⟨by decide, by decide,
    (claim_C6_seven_bag 2 (List.replicate 14 0)
      [Kind.I, Kind.J, Kind.L, Kind.O, Kind.S, Kind.Z, Kind.T,
       Kind.I, Kind.J, Kind.L, Kind.O, Kind.S, Kind.Z, Kind.T] newBag
      (by decide) (by decide)).2.1 1 (by decide) Kind.Z⟩

/-- Every row of the content matrix has the playfield width. -/
def WFrows (content : List (List Cell)) (w : Nat) : Prop :=
  ∀ row ∈ content, row.length = w

instance (content : List (List Cell)) (w : Nat) : Decidable (WFrows content w) :=
  List.decidableBAll _ content

theorem pyIdx_of_nonneg_lt {n : Nat} {i : Int} (h0 : 0 ≤ i) (h1 : i < (n : Int)) :
    pyIdx n i = some i.toNat := by
  simp [pyIdx, h0, h1]

theorem pyIdx_of_neg {n : Nat} {i : Int} (h0 : i < 0) (h1 : -(n : Int) ≤ i) :
    pyIdx n i = some ((n : Int) + i).toNat := by
  have : ¬ 0 ≤ i := by omega
  simp [pyIdx, this, h1]

theorem pyIdx_lt {n : Nat} {i : Int} {j : Nat} (h : pyIdx n i = some j) : j < n := by
  simp only [pyIdx] at h
  split_ifs at h <;> simp only [Option.some_inj] at h <;> omega

/-- The rows kept by the pop pass: the rows of xs whose (absolute) index,
counted from idx, is not in rs. -/
def keepRowsGo (rs : List Nat) : Nat → List (List Cell) → List (List Cell)
  | _, [] => []
  | idx, x :: t =>
    if idx ∈ rs then keepRowsGo rs (idx + 1) t else x :: keepRowsGo rs (idx + 1) t

/-- The rows of xs whose index is not in rs, in order. -/
def keepRows (xs : List (List Cell)) (rs : List Nat) : List (List Cell) :=
  keepRowsGo rs 0 xs

theorem keepRowsGo_of_lt :
    ∀ (xs : List (List Cell)) (rs : List Nat) (idx : Nat),
      (∀ s ∈ rs, s < idx) → keepRowsGo rs idx xs = xs := by
  intro xs
  induction xs with
  | nil => intro rs idx _; rfl
  | cons x t ih =>
    intro rs idx hlt
    have hnot : idx ∉ rs := fun hc => absurd (hlt idx hc) (by omega)
    simp only [keepRowsGo, if_neg hnot]
    rw [ih rs (idx + 1) fun s hs => Nat.lt_succ_of_lt (hlt s hs)]

theorem keepRowsGo_congr :
    ∀ (xs : List (List Cell)) (rs1 rs2 : List Nat) (idx : Nat),
      (∀ j, j ∈ rs1 ↔ j ∈ rs2) → keepRowsGo rs1 idx xs = keepRowsGo rs2 idx xs := by
  intro xs
  induction xs with
  | nil => intro rs1 rs2 idx _; rfl
  | cons x t ih =>
    intro rs1 rs2 idx hmem
    simp only [keepRowsGo]
    by_cases h1 : idx ∈ rs1
    · rw [if_pos h1, if_pos ((hmem idx).mp h1), ih rs1 rs2 (idx + 1) hmem]
    · rw [if_neg h1, if_neg (fun hc => h1 ((hmem idx).mpr hc)), ih rs1 rs2 (idx + 1) hmem]

theorem keepRowsGo_eraseIdx :
    ∀ (xs : List (List Cell)) (idx r : Nat) (rs : List Nat),
      (∀ s ∈ rs, s < idx + r) →
      keepRowsGo rs idx (xs.eraseIdx r) = keepRowsGo ((idx + r) :: rs) idx xs := by
  intro xs
  induction xs with
  | nil => intro idx r rs _; simp [List.eraseIdx, keepRowsGo]
  | cons x t ih =>
    intro idx r rs hlt
    cases r with
    | zero =>
      simp only [List.eraseIdx, Nat.add_zero]
      have hl : ∀ s ∈ rs, s < idx := by simpa using hlt
      rw [keepRowsGo_of_lt t rs idx hl]
      have hmem : idx ∈ idx :: rs := List.mem_cons_self idx rs
      simp only [keepRowsGo, if_pos hmem]
      have hl2 : ∀ s ∈ idx :: rs, s < idx + 1 := by
        intro s hs
        rcases List.mem_cons.mp hs with h | h
        · omega
        · exact Nat.lt_succ_of_lt (hl s h)
      rw [keepRowsGo_of_lt t (idx :: rs) (idx + 1) hl2]
    | succ r =>
      have hiff : idx ∈ (idx + (r + 1)) :: rs ↔ idx ∈ rs := by
        simp only [List.mem_cons]
        constructor
        · rintro (h | h)
          · omega
          · exact h
        · exact fun h => Or.inr h
      simp only [List.eraseIdx, keepRowsGo]
      by_cases hmem : idx ∈ rs
      · rw [if_pos hmem, if_pos (hiff.mpr hmem)]
        rw [ih (idx + 1) r rs (fun s hs => by have := hlt s hs; omega)]
        have harith : idx + 1 + r = idx + (r + 1) := by omega
        rw [harith]
      · rw [if_neg hmem, if_neg (fun hc => hmem (hiff.mp hc))]
        rw [ih (idx + 1) r rs (fun s hs => by have := hlt s hs; omega)]
        have harith : idx + 1 + r = idx + (r + 1) := by omega
        rw [harith]

/-- Popping a strictly descending list of in-range non-negative indices
succeeds and keeps exactly the rows at the other indices, in order. -/
theorem popRows_keep :
    ∀ (rs : List Int) (xs : List (List Cell)),
      rs.Pairwise (fun a b => b < a) →
      (∀ r ∈ rs, 0 ≤ r ∧ r < (xs.length : Int)) →
      popRows xs rs = some (keepRowsGo (rs.map Int.toNat) 0 xs) := by
  intro rs
  induction rs with
  | nil =>
    intro xs _ _
    simp only [popRows, List.map_nil]
    rw [keepRowsGo_of_lt xs [] 0 (by simp)]
  | cons r rest ih =>
    intro xs hpair hbnd
    obtain ⟨hr0, hrlt⟩ := hbnd r (List.mem_cons_self r rest)
    have hidx : pyIdx xs.length r = some r.toNat := pyIdx_of_nonneg_lt hr0 hrlt
    have hrnat : r.toNat < xs.length := by omega
    simp only [popRows, pyPop, hidx, Option.map_some', Option.some_bind]
    have hlen2 : (xs.eraseIdx r.toNat).length = xs.length - 1 :=
      List.length_eraseIdx_of_lt hrnat
    have hpair2 : rest.Pairwise (fun a b => b < a) := hpair.of_cons
    have hb2 : ∀ s ∈ rest, 0 ≤ s ∧ s < ((xs.eraseIdx r.toNat).length : Int) := by
      intro s hs
      obtain ⟨hs0, _⟩ := hbnd s (List.mem_cons_of_mem r hs)
      have hsr : s < r := (List.pairwise_cons.mp hpair).1 s hs
      refine ⟨hs0, ?_⟩
      rw [hlen2]
      omega
    rw [ih (xs.eraseIdx r.toNat) hpair2 hb2]
    congr 1
    rw [keepRowsGo_eraseIdx xs 0 r.toNat (rest.map Int.toNat) ?_]
    · simp only [List.map_cons, Nat.zero_add]
    · intro s hs
      obtain ⟨s', hs', rfl⟩ := List.mem_map.mp hs
      obtain ⟨hs0, _⟩ := hbnd s' (List.mem_cons_of_mem r hs')
      have hsr : s' < r := (List.pairwise_cons.mp hpair).1 s' hs'
      omega

/-- Popping k valid indices shortens the list by exactly k. -/
theorem popRows_length :
    ∀ (rs : List Int) (xs out : List (List Cell)),
      popRows xs rs = some out →
      out.length + rs.length = xs.length := by
  intro rs
  induction rs with
  | nil =>
    intro xs out h
    simp only [popRows, Option.some_inj] at h
    simp [← h]
  | cons r rest ih =>
    intro xs out h
    simp only [popRows, pyPop, Option.bind_eq_some, Option.map_eq_some'] at h
    obtain ⟨c, ⟨j, hj, hc⟩, hrec⟩ := h
    have hjlt : j < xs.length := pyIdx_lt hj
    have := ih (xs.eraseIdx j) out (by rw [← hc] at hrec; exact hrec)
    rw [List.length_eraseIdx_of_lt hjlt] at this
    simp only [List.length_cons]
    omega

theorem collectRowsGo_nodup :
    ∀ (vs : List Vector) (acc : List Int), acc.Nodup → (collectRowsGo acc vs).Nodup := by
  intro vs
  induction vs with
  | nil => intro acc h; exact h
  | cons v vs ih =>
    intro acc h
    simp only [collectRowsGo]
    by_cases hmem : v.y ∈ acc
    · rw [if_pos hmem]; exact ih acc h
    · rw [if_neg hmem]
      refine ih (acc ++ [v.y]) ?_
      rw [← List.concat_eq_append]
      exact List.Nodup.concat hmem h

theorem collectRowsGo_mem :
    ∀ (vs : List Vector) (acc : List Int) (r : Int),
      r ∈ collectRowsGo acc vs ↔ r ∈ acc ∨ ∃ v ∈ vs, v.y = r := by
  intro vs
  induction vs with
  | nil => intro acc r; simp [collectRowsGo]
  | cons v vs ih =>
    intro acc r
    simp only [collectRowsGo]
    by_cases hmem : v.y ∈ acc
    · rw [if_pos hmem, ih]
      constructor
      · rintro (h | ⟨v2, h2, h3⟩)
        · exact Or.inl h
        · exact Or.inr ⟨v2, List.mem_cons_of_mem v h2, h3⟩
      · rintro (h | ⟨v2, h2, h3⟩)
        · exact Or.inl h
        · rcases List.mem_cons.mp h2 with h4 | h4
          · subst h4; subst h3; exact Or.inl hmem
          · exact Or.inr ⟨v2, h4, h3⟩
    · rw [if_neg hmem, ih]
      constructor
      · rintro (h | ⟨v2, h2, h3⟩)
        · rcases List.mem_append.mp h with h4 | h4
          · exact Or.inl h4
          · exact Or.inr ⟨v, List.mem_cons_self v vs, (List.mem_singleton.mp h4).symm⟩
        · exact Or.inr ⟨v2, List.mem_cons_of_mem v h2, h3⟩
      · rintro (h | ⟨v2, h2, h3⟩)
        · exact Or.inl (List.mem_append.mpr (Or.inl h))
        · rcases List.mem_cons.mp h2 with h4 | h4
          · subst h4; subst h3
            exact Or.inl (List.mem_append.mpr (Or.inr (List.mem_singleton.mpr rfl)))
          · exact Or.inr ⟨v2, h4, h3⟩

theorem rowsToScan_mem (vs : List Vector) (r : Int) :
    r ∈ rowsToScanOf vs ↔ ∃ v ∈ vs, v.y = r := by
  unfold rowsToScanOf
  rw [(List.perm_insertionSort _ _).mem_iff, collectRows, collectRowsGo_mem]
  simp

theorem rowsToScan_pairwise (vs : List Vector) :
    (rowsToScanOf vs).Pairwise (· < ·) := by
  have hs : (rowsToScanOf vs).Sorted (· ≤ ·) :=
    List.sorted_insertionSort _ (collectRows vs)
  have hnd : (rowsToScanOf vs).Nodup :=
    (List.perm_insertionSort _ _).nodup_iff.mpr
      (collectRowsGo_nodup vs [] List.nodup_nil)
  exact hs.lt_of_le hnd

theorem rowsToRemove_pairwise (w : Nat) (content : List (List Cell)) (vs : List Vector) :
    (rowsToRemoveOf w content vs).Pairwise (· < ·) :=
  (rowsToScan_pairwise vs).filter _

theorem rowsToRemove_sub (w : Nat) (content : List (List Cell)) (vs : List Vector)
    (r : Int) (h : r ∈ rowsToRemoveOf w content vs) : r ∈ rowsToScanOf vs :=
  List.mem_of_mem_filter h

theorem setCell_shape {c c2 : List (List Cell)} {v : Vector} {t : Nat} {w : Nat}
    (hwf : WFrows c w) (h : setCell c v t = some c2) :
    c2.length = c.length ∧ WFrows c2 w := by
  simp only [setCell, Option.bind_eq_some, Option.some_inj] at h
  obtain ⟨j, hj, row, hrow, i, hi, hc2⟩ := h
  subst hc2
  refine ⟨List.length_set c j _, ?_⟩
  intro row2 hmem
  rcases List.mem_or_eq_of_mem_set hmem with h | h
  · exact hwf row2 h
  · subst h
    rw [List.length_set]
    exact hwf row (List.get?_mem hrow)

theorem markAll_shape :
    ∀ (vs : List Vector) (c c2 : List (List Cell)) (t : Nat) (w : Nat),
      WFrows c w → markAll c vs t = some c2 →
      c2.length = c.length ∧ WFrows c2 w := by
  intro vs
  induction vs with
  | nil =>
    intro c c2 t w hwf h
    simp only [markAll, Option.some_inj] at h
    subst h
    exact ⟨rfl, hwf⟩
  | cons v vs ih =>
    intro c c2 t w hwf h
    simp only [markAll, Option.bind_eq_some] at h
    obtain ⟨c1, h1, h2⟩ := h
    obtain ⟨hl1, hw1⟩ := setCell_shape hwf h1
    obtain ⟨hl2, hw2⟩ := ih c1 c2 t w hw1 h2
    exact ⟨hl2.trans hl1, hw2⟩

/-- C2: a lock call on a well-formed grid with in-range cells marks the
cells, removes exactly the touched rows whose occupied count reaches the
width (the touched rows being exactly the y values of the locked cells),
inserts an equal number of empty rows at the top, leaves the grid height
unchanged, awards the matching score, and in the single-full-bottom-row
case produces exactly one fresh empty top row above the surviving rows. -/
theorem claim_C2_land_clears (pf : Playfield) (score : Nat) (vs : List Vector)
    (tag : Nat) (marked : List (List Cell))
    (hwf : WFrows pf.playfieldContent pf.size_x)
    (hh : pf.playfieldContent.length = pf.size_y)
    (hpos : 0 < pf.size_y)
    (hy : ∀ v ∈ vs, 0 ≤ v.y ∧ v.y < (pf.size_y : Int))
    (hm : markAll pf.playfieldContent vs tag = some marked)
    (hk : (rowsToRemoveOf pf.size_x marked vs).length ≤ 4) :
    ∃ pf2 score2, pf.land score vs tag = some (pf2, score2)
      ∧ pf2.playfieldContent
          = List.replicate (rowsToRemoveOf pf.size_x marked vs).length (emptyRow pf.size_x)
            ++ keepRows marked ((rowsToRemoveOf pf.size_x marked vs).map Int.toNat)
      ∧ rowsToRemoveOf pf.size_x marked vs
          = (rowsToScanOf vs).filter (fun r => decide (pf.size_x ≤ hitCount marked r))
      ∧ (∀ r : Int, r ∈ rowsToScanOf vs ↔ ∃ v ∈ vs, v.y = r)
      ∧ Score.add score ((rowsToRemoveOf pf.size_x marked vs).length : Int) = some score2
      ∧ pf2.playfieldContent.length = pf.playfieldContent.length
      ∧ (rowsToRemoveOf pf.size_x marked vs = [(pf.size_y : Int) - 1] →
          pf2.playfieldContent = emptyRow pf.size_x :: marked.take (pf.size_y - 1)) := by
  obtain ⟨hmlen, hmw⟩ := markAll_shape vs pf.playfieldContent marked tag pf.size_x hwf hm
  obtain ⟨rtr, hrtr⟩ : ∃ rtr, rowsToRemoveOf pf.size_x marked vs = rtr := ⟨_, rfl⟩
  rw [hrtr] at hk ⊢
  have hsub : ∀ r ∈ rtr, r ∈ rowsToScanOf vs := by
    intro r hr
    exact rowsToRemove_sub pf.size_x marked vs r (hrtr ▸ hr)
  have hbound : ∀ r ∈ rtr, 0 ≤ r ∧ r < (marked.length : Int) := by
    intro r hr
    obtain ⟨v, hv, hvy⟩ := (rowsToScan_mem vs r).mp (hsub r hr)
    have hvb := hy v hv
    rw [hmlen, hh]
    omega
  have hpair : rtr.Pairwise (· < ·) := hrtr ▸ rowsToRemove_pairwise pf.size_x marked vs
  have hdesc : rtr.reverse.Pairwise (fun a b => b < a) :=
    List.pairwise_reverse.mpr hpair
  have hbrev : ∀ r ∈ rtr.reverse, 0 ≤ r ∧ r < (marked.length : Int) := fun r hr =>
    hbound r (List.mem_reverse.mp hr)
  have hpop := popRows_keep rtr.reverse marked hdesc hbrev
  have hkc : keepRowsGo (rtr.reverse.map Int.toNat) 0 marked
      = keepRowsGo (rtr.map Int.toNat) 0 marked := by
    refine keepRowsGo_congr marked _ _ 0 ?_
    intro j
    simp only [List.mem_map, List.mem_reverse]
  rw [hkc] at hpop
  have hlenpop : (keepRowsGo (rtr.map Int.toNat) 0 marked).length + rtr.length
      = marked.length := by
    have hp := popRows_length rtr.reverse marked _ hpop
    rw [List.length_reverse] at hp
    exact hp
  have hc3len : (List.replicate rtr.length (emptyRow pf.size_x)
      ++ keepRowsGo (rtr.map Int.toNat) 0 marked).length
      = pf.playfieldContent.length := by
    rw [List.length_append, List.length_replicate, ← hmlen]
    omega
  have hc3pos : 0 < (List.replicate rtr.length (emptyRow pf.size_x)
      ++ keepRowsGo (rtr.map Int.toNat) 0 marked).length := by
    rw [hc3len, hh]
    exact hpos
  obtain ⟨row0, rest3, hc3⟩ : ∃ row0 rest3,
      List.replicate rtr.length (emptyRow pf.size_x)
        ++ keepRowsGo (rtr.map Int.toNat) 0 marked = row0 :: rest3 := by
    cases hL : List.replicate rtr.length (emptyRow pf.size_x)
        ++ keepRowsGo (rtr.map Int.toNat) 0 marked with
    | nil => rw [hL] at hc3pos; simp at hc3pos
    | cons a b => exact ⟨a, b, rfl⟩
  have hhead : (List.replicate rtr.length (emptyRow pf.size_x)
      ++ keepRowsGo (rtr.map Int.toNat) 0 marked).head? = some row0 := by
    rw [hc3]
    rfl
  obtain ⟨score2, hsc2⟩ : ∃ s2, Score.add score (rtr.length : Int) = some s2 := by
    have h5 : rtr.length = 0 ∨ rtr.length = 1 ∨ rtr.length = 2 ∨ rtr.length = 3
        ∨ rtr.length = 4 := by omega
    rcases h5 with h | h | h | h | h <;> rw [h] <;> exact ⟨_, rfl⟩
  have hland : pf.land score vs tag = some
      (⟨pf.size_x, pf.size_y,
        List.replicate rtr.length (emptyRow pf.size_x)
          ++ keepRowsGo (rtr.map Int.toNat) 0 marked,
        pf.topped_out || row0.any fun c => c.isSome⟩, score2) := by
    unfold Playfield.land
    rw [hm]
    simp only [Option.some_bind]
    rw [hrtr, hpop]
    simp only [Option.some_bind]
    rw [hhead]
    simp only [Option.some_bind]
    rw [hsc2]
    simp only [Option.map_some']
  refine ⟨_, score2, hland, rfl, by rw [← hrtr]; rfl, rowsToScan_mem vs, hsc2, hc3len, ?_⟩
  intro hone
  have hlen1 : rtr.length = 1 := by rw [hone]; rfl
  have htn : ((pf.size_y : Int) - 1).toNat = pf.size_y - 1 := by omega
  have hmap : rtr.map Int.toNat = [pf.size_y - 1] := by
    rw [hone]
    simp only [List.map_cons, List.map_nil, htn]
  have hkeep : keepRowsGo [pf.size_y - 1] 0 marked = marked.eraseIdx (pf.size_y - 1) := by
    have hS := keepRowsGo_eraseIdx marked 0 (pf.size_y - 1) [] (by simp)
    rw [keepRowsGo_of_lt (marked.eraseIdx (pf.size_y - 1)) [] 0 (by simp)] at hS
    rw [Nat.zero_add] at hS
    exact hS.symm
  have herase : marked.eraseIdx (pf.size_y - 1) = marked.take (pf.size_y - 1) := by
    rw [List.eraseIdx_eq_take_drop_succ]
    have hsy : pf.size_y - 1 + 1 = marked.length := by rw [hmlen, hh]; omega
    rw [hsy, List.drop_length, List.append_nil]
  rw [hlen1, hmap, hkeep, herase]
  simp only [List.replicate_one, List.singleton_append]

/-- Witness for C2: locking the two cells that fill the bottom row of an
empty 2 by 2 grid succeeds and keeps the grid two rows tall. -/
theorem claim_C2_land_clears_witness :
    markAll (Playfield.init 2 2).playfieldContent [⟨0, 1⟩, ⟨1, 1⟩] 7
      = some [[none, none], [some 7, some 7]]
    ∧ ∃ pf2 score2,
        (Playfield.init 2 2).land 0 [⟨0, 1⟩, ⟨1, 1⟩] 7 = some (pf2, score2)
        ∧ pf2.playfieldContent.length = (Playfield.init 2 2).playfieldContent.length := by
  refine ⟨by decide, ?_⟩
  obtain ⟨pf2, score2, h1, _, _, _, _, h6, _⟩ :=
    claim_C2_land_clears (Playfield.init 2 2) 0 [⟨0, 1⟩, ⟨1, 1⟩] 7
      [[none, none], [some 7, some 7]] (by decide) rfl (by decide) (by decide)
      (by decide) (by decide)
  exact ⟨pf2, score2, h1, h6⟩

theorem emptyRow_any (w : Nat) : ((emptyRow w).any fun c => c.isSome) = false := by
  induction w with
  | zero => rfl
  | succ w ih =>
    simp only [emptyRow, List.replicate_succ, List.any_cons, Option.isSome_none,
      Bool.false_or]
    exact ih

/-- Structure of a successful land call: the new topped_out flag is the old
one or-ed with the occupancy of the new top row. -/
theorem land_topped {pf : Playfield} {s : Nat} {vs : List Vector} {t : Nat}
    {pf2 : Playfield} {s2 : Nat} (h : pf.land s vs t = some (pf2, s2)) :
    pf2.topped_out
      = (pf.topped_out || (pf2.playfieldContent.headD []).any fun c => c.isSome) := by
  simp only [Playfield.land, Option.bind_eq_some, Option.map_eq_some'] at h
  obtain ⟨content, hmark, c2, hpop, topRow, hhead, s2', hsc, hfin⟩ := h
  rw [Prod.mk.injEq] at hfin
  obtain ⟨hpf2, hs2⟩ := hfin
  subst hpf2
  cases hL : List.replicate (rowsToRemoveOf pf.size_x content vs).length
      (emptyRow pf.size_x) ++ c2 with
  | nil => rw [hL] at hhead; cases hhead
  | cons a b =>
    rw [hL] at hhead
    simp only [List.head?_cons, Option.some_inj] at hhead
    simp only [hL, List.headD_cons, hhead]

/-- C10: a lock call that removes at least one full row inserts fresh empty
rows at the top before the top-row check runs, so it leaves topped_out
exactly as it was. -/
theorem claim_C10_clear_keeps_topped (pf : Playfield) (score : Nat)
    (vs : List Vector) (tag : Nat) (marked : List (List Cell))
    (pf2 : Playfield) (score2 : Nat)
    (hm : markAll pf.playfieldContent vs tag = some marked)
    (hne : rowsToRemoveOf pf.size_x marked vs ≠ [])
    (hl : pf.land score vs tag = some (pf2, score2)) :
    pf2.topped_out = pf.topped_out := by
  simp only [Playfield.land, Option.bind_eq_some, Option.map_eq_some'] at hl
  obtain ⟨content, hmark, c2, hpop, topRow, hhead, s2', hsc, hfin⟩ := hl
  rw [hm] at hmark
  rw [Option.some_inj] at hmark
  subst hmark
  rw [Prod.mk.injEq] at hfin
  obtain ⟨hpf2, hs2⟩ := hfin
  subst hpf2
  obtain ⟨r0, rs, hcons⟩ : ∃ r0 rs, rowsToRemoveOf pf.size_x marked vs = r0 :: rs := by
    cases h : rowsToRemoveOf pf.size_x marked vs with
    | nil => exact absurd h hne
    | cons a b => exact ⟨a, b, rfl⟩
  rw [hcons] at hhead
  simp only [List.length_cons, List.replicate_succ, List.cons_append,
    List.head?_cons, Option.some_inj] at hhead
  subst hhead
  simp only [emptyRow_any, Bool.or_false]

theorem moveH_playfield {st st2 : GameSt} {dx : Int}
    (h : moveHorizontally st dx = some st2) :
    st2.playfield = st.playfield ∧ st2.score = st.score
      ∧ st2.piece.landed = st.piece.landed ∧ st2.piece.kind = st.piece.kind := by
  unfold moveHorizontally at h
  split at h
  · cases h
  · rw [Option.some_inj] at h; subst h; exact ⟨rfl, rfl, rfl, rfl⟩
  · rw [Option.some_inj] at h; subst h; exact ⟨rfl, rfl, rfl, rfl⟩

theorem rotateGeneric_playfield {st st2 : GameSt}
    (h : rotateGeneric st = some st2) :
    st2.playfield = st.playfield ∧ st2.score = st.score
      ∧ st2.piece.landed = st.piece.landed ∧ st2.piece.kind = st.piece.kind := by
  simp only [rotateGeneric] at h
  split at h
  · cases h
  · rw [Option.some_inj] at h; subst h; exact ⟨rfl, rfl, rfl, rfl⟩
  · rw [Option.some_inj] at h; subst h; exact ⟨rfl, rfl, rfl, rfl⟩

theorem rotateStep_playfield {st st2 : GameSt}
    (h : rotateStep st = some st2) :
    st2.playfield = st.playfield ∧ st2.score = st.score
      ∧ st2.piece.landed = st.piece.landed ∧ st2.piece.kind = st.piece.kind := by
  unfold rotateStep at h
  split at h
  · rw [Option.some_inj] at h; subst h; exact ⟨rfl, rfl, rfl, rfl⟩
  · exact rotateGeneric_playfield h

theorem doGravity_topped_mono {st st2 : GameSt}
    (ht : st.playfield.topped_out = true) (h : doGravity st = some st2) :
    st2.playfield.topped_out = true := by
  unfold doGravity at h
  split_ifs at h with hl
  · rw [Option.some_inj] at h; subst h; exact ht
  · split at h
    · cases h
    · simp only [Option.map_eq_some'] at h
      obtain ⟨p, hland, hst2⟩ := h
      have hpair : st.playfield.land st.score st.piece.position
          (colorCode st.piece.kind) = some (p.1, p.2) := by
        rw [hland]
      have htop := land_topped hpair
      rw [← hst2]
      simp only [htop, ht, Bool.true_or]
    · rw [Option.some_inj] at h; subst h; exact ht

theorem dropGo_topped_mono :
    ∀ (fuel : Nat) (st st2 : GameSt), st.playfield.topped_out = true →
      dropGo fuel st = some st2 → st2.playfield.topped_out = true := by
  intro fuel
  induction fuel with
  | zero => intro st st2 _ h; cases h
  | succ fuel ih =>
    intro st st2 ht h
    simp only [dropGo] at h
    split_ifs at h with hl
    · rw [Option.some_inj] at h; subst h; exact ht
    · obtain ⟨stm, h1, h2⟩ := Option.bind_eq_some.mp h
      exact ih stm st2 (doGravity_topped_mono ht h1) h2

theorem drop_topped_mono {st st2 : GameSt} (ht : st.playfield.topped_out = true)
    (h : drop st = some st2) : st2.playfield.topped_out = true := by
  unfold drop at h
  exact dropGo_topped_mono (dropFuelFor st) st st2 ht h

/-- C9: topped_out starts false, is set by a lock exactly when the top row
holds an occupied cell after compaction, and once true survives every
process call (it is never cleared). -/
theorem claim_C9_topped_out_terminal :
    (∀ w h : Nat, (Playfield.init w h).topped_out = false)
    ∧ (∀ (pf : Playfield) (s : Nat) (vs : List Vector) (t : Nat)
        (pf2 : Playfield) (s2 : Nat), pf.land s vs t = some (pf2, s2) →
        pf2.topped_out
          = (pf.topped_out || (pf2.playfieldContent.headD []).any fun c => c.isSome))
    ∧ (∀ (st : GameSt) (sg : Bool) (dx : Int) (up down : Bool) (st2 : GameSt),
        st.playfield.topped_out = true → process st sg dx up down = some st2 →
        st2.playfield.topped_out = true) := by
  refine ⟨fun w h => rfl, fun pf s vs t pf2 s2 h => land_topped h,
    fun st sg dx up down st2 ht h => ?_⟩
  unfold process at h
  by_cases hl : st.piece.landed = true
  · rw [if_pos hl, Option.some_inj] at h
    subst h; exact ht
  · rw [if_neg hl] at h
    obtain ⟨st1, hmov, h⟩ := Option.bind_eq_some.mp h
    have ht1 : st1.playfield.topped_out = true := by
      rw [(moveH_playfield hmov).1]; exact ht
    obtain ⟨stR, hrot, h⟩ := Option.bind_eq_some.mp h
    have ht2 : stR.playfield.topped_out = true := by
      by_cases hup : up = true
      · rw [if_pos hup] at hrot
        rw [(rotateStep_playfield hrot).1]; exact ht1
      · rw [if_neg hup, Option.some_inj] at hrot; subst hrot; exact ht1
    by_cases hdn : down = true
    · rw [if_pos hdn] at h
      exact drop_topped_mono ht2 h
    · rw [if_neg hdn] at h
      by_cases hsg : sg = true
      · rw [if_pos hsg] at h
        exact doGravity_topped_mono ht2 h
      · rw [if_neg hsg, Option.some_inj] at h; subst h; exact ht2

/-- Witness for C9: a lock occupying the top row of a 2-wide 1-tall grid
without clearing it sets topped_out, and a later process call on a
topped-out state keeps it set. -/
theorem claim_C9_topped_out_terminal_witness :
    (Playfield.init 2 1).land 0 [⟨0, 0⟩] 2
      = some (⟨2, 1, [[some 2, none]], true⟩, 0)
    ∧ (⟨⟨2, 1, [[some 2, none]], true⟩, 0, ⟨[⟨0, 0⟩], true, Kind.J⟩⟩ : GameSt).playfield.topped_out = true
    ∧ process ⟨⟨2, 1, [[some 2, none]], true⟩, 0, ⟨[⟨0, 0⟩], true, Kind.J⟩⟩ true 0 true true
      = some ⟨⟨2, 1, [[some 2, none]], true⟩, 0, ⟨[⟨0, 0⟩], true, Kind.J⟩⟩
    ∧ (⟨⟨2, 1, [[some 2, none]], true⟩, 0, ⟨[⟨0, 0⟩], true, Kind.J⟩⟩ : GameSt).playfield.topped_out = true := by
  refine ⟨by decide, rfl, by decide, ?_⟩
  exact claim_C9_topped_out_terminal.2.2
    ⟨⟨2, 1, [[some 2, none]], true⟩, 0, ⟨[⟨0, 0⟩], true, Kind.J⟩⟩ true 0 true true
    ⟨⟨2, 1, [[some 2, none]], true⟩, 0, ⟨[⟨0, 0⟩], true, Kind.J⟩⟩ rfl (by decide)

/-- Witness for C10: locking the filling cell of a 1 by 2 grid bottom row
clears one row and leaves topped_out false as before. -/
theorem claim_C10_clear_keeps_topped_witness :
    markAll (Playfield.init 1 2).playfieldContent [⟨0, 1⟩] 4 = some [[none], [some 4]]
    ∧ rowsToRemoveOf 1 [[none], [some 4]] [⟨0, 1⟩] ≠ []
    ∧ (Playfield.init 1 2).land 0 [⟨0, 1⟩] 4 = some (⟨1, 2, [[none], [none]], false⟩, 100)
    ∧ (⟨1, 2, [[none], [none]], false⟩ : Playfield).topped_out
      = (Playfield.init 1 2).topped_out := by
  refine ⟨by decide, by decide, by decide, ?_⟩
  exact claim_C10_clear_keeps_topped (Playfield.init 1 2) 0 [⟨0, 1⟩] 4
    [[none], [some 4]] ⟨1, 2, [[none], [none]], false⟩ 100 (by decide) (by decide)
    (by decide)

/-- A cell read with y in Python range [-h, h) and x in [0, w) never
raises. -/
theorem pyCell_in_range {content : List (List Cell)} {w h : Nat}
    (hwf : WFrows content w) (hlen : content.length = h) {y x : Int}
    (hy1 : -(h : Int) ≤ y) (hy2 : y < (h : Int)) (hx1 : 0 ≤ x) (hx2 : x < (w : Int)) :
    ∃ c : Cell, pyCell content y x = some c := by
  have hidx : ∃ j, pyIdx content.length y = some j ∧ j < content.length := by
    rw [hlen]
    by_cases h0 : 0 ≤ y
    · exact ⟨y.toNat, pyIdx_of_nonneg_lt h0 hy2, by omega⟩
    · refine ⟨((h : Int) + y).toNat, pyIdx_of_neg (by omega) hy1, by omega⟩
  obtain ⟨j, hj, hjlt⟩ := hidx
  have hrow : content.get? j = some (content.get ⟨j, hjlt⟩) := List.get?_eq_get hjlt
  have hrw : (content.get ⟨j, hjlt⟩).length = w :=
    hwf (content.get ⟨j, hjlt⟩) (List.get?_mem hrow)
  have hxi : pyIdx (content.get ⟨j, hjlt⟩).length x = some x.toNat := by
    rw [hrw]
    exact pyIdx_of_nonneg_lt hx1 hx2
  have hxlt : x.toNat < (content.get ⟨j, hjlt⟩).length := by rw [hrw]; omega
  obtain ⟨c, hc⟩ : ∃ c, (content.get ⟨j, hjlt⟩).get? x.toNat = some c :=
    ⟨(content.get ⟨j, hjlt⟩).get ⟨x.toNat, hxlt⟩, List.get?_eq_get hxlt⟩
  exact ⟨c, by simp only [pyCell, pyGet, hj, Option.some_bind, hrow, hxi, hc]⟩

/-- Python negative indexing: a row read at y in [-h, 0) is the read of the
bottom-aliased row h + y. -/
theorem pyCell_neg_alias {content : List (List Cell)} {h : Nat}
    (hlen : content.length = h) {y : Int} (hy1 : -(h : Int) ≤ y) (hy2 : y < 0)
    (x : Int) :
    pyCell content y x = pyCell content ((h : Int) + y) x := by
  have hhy : 0 ≤ (h : Int) + y := by omega
  have hhy2 : (h : Int) + y < (h : Int) := by omega
  simp only [pyCell, pyGet, hlen]
  rw [pyIdx_of_neg hy2 hy1, pyIdx_of_nonneg_lt hhy hhy2]

theorem occ_neg_alias {content : List (List Cell)} {h : Nat}
    (hlen : content.length = h) {y : Int} (hy1 : -(h : Int) ≤ y) (hy2 : y < 0)
    (x : Int) :
    occ content y x = occ content ((h : Int) + y) x := by
  simp only [occ, pyCell_neg_alias hlen hy1 hy2 x]

/-- The shared per-cell validation of move and rotate on cells whose x is
in range and whose y is in Python range: it never raises and it accepts
exactly when no cell's occupancy test fires. -/
theorem checkCells_spec {w h : Nat} {content : List (List Cell)}
    (hwf : WFrows content w) (hlen : content.length = h) :
    ∀ cells : List Vector,
      (∀ v ∈ cells, 0 ≤ v.x ∧ v.x < (w : Int)) →
      (∀ v ∈ cells, -(h : Int) ≤ v.y ∧ v.y < (h : Int)) →
      checkCells w content cells = some (cells.all fun v => !(occ content v.y v.x)) := by
  intro cells
  induction cells with
  | nil => intro _ _; rfl
  | cons b rest ih =>
    intro hx hy
    obtain ⟨hbx1, hbx2⟩ := hx b (List.mem_cons_self b rest)
    obtain ⟨hby1, hby2⟩ := hy b (List.mem_cons_self b rest)
    obtain ⟨c, hc⟩ := pyCell_in_range hwf hlen hby1 hby2 hbx1 hbx2
    have hnb : ¬((w : Int) ≤ b.x ∨ b.x < 0) := by omega
    simp only [checkCells, if_neg hnb, hc]
    have hocc : occ content b.y b.x = c.isSome := by
      simp only [occ, hc]
    by_cases hso : c.isSome = true
    · rw [if_pos hso]
      simp [hocc, hso]
    · rw [if_neg hso]
      rw [ih (fun v hv => hx v (List.mem_cons_of_mem b hv))
        (fun v hv => hy v (List.mem_cons_of_mem b hv))]
      simp only [Bool.not_eq_true] at hso
      simp [hocc, hso]

/-- The gravity scan on in-range cells: never raises, accepts exactly when
every cell's next row is inside the grid and unoccupied. -/
theorem checkGravity_spec {w h : Nat} {content : List (List Cell)}
    (hwf : WFrows content w) (hlen : content.length = h) :
    ∀ cells : List Vector,
      (∀ v ∈ cells, 0 ≤ v.x ∧ v.x < (w : Int)) →
      (∀ v ∈ cells, 0 ≤ v.y) →
      checkGravity h content cells
        = some (cells.all fun v =>
            decide (v.y + 1 < (h : Int)) && !(occ content (v.y + 1) v.x)) := by
  intro cells
  induction cells with
  | nil => intro _ _; rfl
  | cons b rest ih =>
    intro hx hy
    obtain ⟨hbx1, hbx2⟩ := hx b (List.mem_cons_self b rest)
    have hby := hy b (List.mem_cons_self b rest)
    by_cases hblk : (h : Int) ≤ b.y + 1
    · simp only [checkGravity, if_pos hblk, List.all_cons]
      have hdec : decide (b.y + 1 < (h : Int)) = false := by
        simp only [decide_eq_false_iff_not]
        omega
      simp [hdec]
    · have hlt : b.y + 1 < (h : Int) := by omega
      obtain ⟨c, hc⟩ := pyCell_in_range hwf hlen (by omega) hlt hbx1 hbx2
      simp only [checkGravity, if_neg hblk, hc]
      have hocc : occ content (b.y + 1) b.x = c.isSome := by
        simp only [occ, hc]
      have hdec : decide (b.y + 1 < (h : Int)) = true := by
        simp only [decide_eq_true_eq]
        exact hlt
      by_cases hso : c.isSome = true
      · rw [if_pos hso]
        simp [hocc, hdec, hso]
      · rw [if_neg hso]
        rw [ih (fun v hv => hx v (List.mem_cons_of_mem b hv))
          (fun v hv => hy v (List.mem_cons_of_mem b hv))]
        simp only [Bool.not_eq_true] at hso
        simp [hocc, hdec, hso]

/-- A 2 by 2 playfield whose bottom-right cell is occupied. -/
def negYDemoGrid : Playfield := ⟨2, 2, [[none, none], [none, some 9]], false⟩

/-- A piece consisting of one cell hovering above the top of the grid at
(0, -1). -/
def negYDemoSt : GameSt := ⟨negYDemoGrid, 0, ⟨[⟨0, -1⟩], false, Kind.I⟩⟩

/-- C1 counterexample: for the cell (0, -1) moving right, the occupancy
test playfieldContent[-1][1] reads the bottom row by Python negative
indexing and returns occupied, so the horizontal move is rejected even
though every piece cell has negative y: the test is not false regardless of
the grid contents, and the piece is obstructed by its negative-y cell. -/
theorem claim_C1_counterexample :
    occ negYDemoGrid.playfieldContent (-1) 1 = true
    ∧ moveHorizontally negYDemoSt 1 = some negYDemoSt
    ∧ negYDemoSt.piece.position = [⟨0, -1⟩]
    ∧ moveHorizontally negYDemoSt 1
        ≠ some ⟨negYDemoGrid, 0, ⟨[⟨1, -1⟩], false, Kind.I⟩⟩ :=
  ⟨by decide, by decide, rfl, by decide⟩

/-- C1 amended: the move and rotate validations perform no y bounds check
at all; a cell with y in [-height, 0) is read through Python negative
indexing, so its occupancy test equals the test of the bottom-aliased row
height + y, and the move/rotate on cells in Python range is accepted
exactly when no (possibly bottom-aliased) destination cell is occupied. -/
theorem claim_C1_neg_y_aliases_bottom (st : GameSt) (dx : Int)
    (hwf : WFrows st.playfield.playfieldContent st.playfield.size_x)
    (hlen : st.playfield.playfieldContent.length = st.playfield.size_y)
    (hmx : ∀ v ∈ st.piece.position,
      0 ≤ v.x + dx ∧ v.x + dx < (st.playfield.size_x : Int))
    (hmy : ∀ v ∈ st.piece.position,
      -(st.playfield.size_y : Int) ≤ v.y ∧ v.y < (st.playfield.size_y : Int))
    (hrx : ∀ v ∈ get_rotated90_around_anchor st.piece.position,
      0 ≤ v.x ∧ v.x < (st.playfield.size_x : Int))
    (hry : ∀ v ∈ get_rotated90_around_anchor st.piece.position,
      -(st.playfield.size_y : Int) ≤ v.y ∧ v.y < (st.playfield.size_y : Int)) :
    (∀ y x : Int, -(st.playfield.size_y : Int) ≤ y → y < 0 →
      occ st.playfield.playfieldContent y x
        = occ st.playfield.playfieldContent ((st.playfield.size_y : Int) + y) x)
    ∧ moveHorizontally st dx
        = (if (st.piece.position.map fun b => (⟨b.x + dx, b.y⟩ : Vector)).all
              (fun v => !(occ st.playfield.playfieldContent v.y v.x))
           then some { st with piece := { st.piece with
             position := translate_all st.piece.position ⟨dx, 0⟩ } }
           else some st)
    ∧ rotateGeneric st
        = (if (get_rotated90_around_anchor st.piece.position).all
              (fun v => !(occ st.playfield.playfieldContent v.y v.x))
           then some { st with piece := { st.piece with
             position := get_rotated90_around_anchor st.piece.position } }
           else some st) := by
  refine ⟨fun y x hy1 hy2 => occ_neg_alias hlen hy1 hy2 x, ?_, ?_⟩
  · have hbx : ∀ v ∈ st.piece.position.map fun b => (⟨b.x + dx, b.y⟩ : Vector),
        0 ≤ v.x ∧ v.x < (st.playfield.size_x : Int) := by
      intro v hv
      obtain ⟨b, hb, rfl⟩ := List.mem_map.mp hv
      exact hmx b hb
    have hby : ∀ v ∈ st.piece.position.map fun b => (⟨b.x + dx, b.y⟩ : Vector),
        -(st.playfield.size_y : Int) ≤ v.y ∧ v.y < (st.playfield.size_y : Int) := by
      intro v hv
      obtain ⟨b, hb, rfl⟩ := List.mem_map.mp hv
      exact hmy b hb
    have hcs := checkCells_spec hwf hlen
      (st.piece.position.map fun b => (⟨b.x + dx, b.y⟩ : Vector)) hbx hby
    unfold moveHorizontally
    rw [hcs]
    cases hall : (st.piece.position.map fun b => (⟨b.x + dx, b.y⟩ : Vector)).all
        fun v => !(occ st.playfield.playfieldContent v.y v.x) with
    | false => rfl
    | true => rfl
  · have hcs := checkCells_spec hwf hlen
      (get_rotated90_around_anchor st.piece.position) hrx hry
    simp only [rotateGeneric]
    rw [hcs]
    cases hall : (get_rotated90_around_anchor st.piece.position).all
        fun v => !(occ st.playfield.playfieldContent v.y v.x) with
    | false => rfl
    | true => rfl

/-- Witness for the amended C1: on the demo grid the hovering cell's
occupancy test equals the bottom row's, and the rejected move leaves the
state unchanged. -/
theorem claim_C1_neg_y_aliases_bottom_witness :
    occ negYDemoGrid.playfieldContent (-1) 1
      = occ negYDemoGrid.playfieldContent (((2 : Nat) : Int) + -1) 1
    ∧ moveHorizontally negYDemoSt 1
        = (if (negYDemoSt.piece.position.map fun b => (⟨b.x + 1, b.y⟩ : Vector)).all
              (fun v => !(occ negYDemoSt.playfield.playfieldContent v.y v.x))
           then some { negYDemoSt with piece := { negYDemoSt.piece with
             position := translate_all negYDemoSt.piece.position ⟨1, 0⟩ } }
           else some negYDemoSt) := by
  have h := claim_C1_neg_y_aliases_bottom negYDemoSt 1 (by decide) rfl
    (by decide) (by decide) (by decide) (by decide)
  exact ⟨h.1 (-1) 1 (by decide) (by decide), h.2.1⟩

/-- C3: one gravity step on a non-landed, in-range piece: when some cell
one row down would reach the grid height or an occupied cell, the whole
piece (unmoved) is pushed into the grid via land and the piece becomes
Landed; otherwise the whole piece moves down one row and the grid is
untouched; a piece with a cell on the bottom row is always in the first
case. -/
theorem claim_C3_gravity_step (st : GameSt)
    (hnl : st.piece.landed = false)
    (hwf : WFrows st.playfield.playfieldContent st.playfield.size_x)
    (hlen : st.playfield.playfieldContent.length = st.playfield.size_y)
    (hx : ∀ v ∈ st.piece.position, 0 ≤ v.x ∧ v.x < (st.playfield.size_x : Int))
    (hy0 : ∀ v ∈ st.piece.position, 0 ≤ v.y) :
    ((∃ v ∈ st.piece.position, (st.playfield.size_y : Int) ≤ v.y + 1
        ∨ occ st.playfield.playfieldContent (v.y + 1) v.x = true) →
      doGravity st
        = (st.playfield.land st.score st.piece.position
            (colorCode st.piece.kind)).map
            fun p => ⟨p.1, p.2, { st.piece with landed := true }⟩)
    ∧ ((∀ v ∈ st.piece.position, v.y + 1 < (st.playfield.size_y : Int)
        ∧ occ st.playfield.playfieldContent (v.y + 1) v.x = false) →
      doGravity st = some { st with piece := { st.piece with
        position := translate_all st.piece.position ⟨0, 1⟩ } })
    ∧ ((∃ v ∈ st.piece.position, v.y = (st.playfield.size_y : Int) - 1) →
        ∃ v ∈ st.piece.position, (st.playfield.size_y : Int) ≤ v.y + 1) := by
  have hcg := checkGravity_spec hwf hlen st.piece.position hx hy0
  have hnotl : ¬(st.piece.landed = true) := by rw [hnl]; exact Bool.false_ne_true
  refine ⟨fun hblocked => ?_, fun hfree => ?_, fun hbottom => ?_⟩
  · obtain ⟨v, hv, hcase⟩ := hblocked
    have hpv : (decide (v.y + 1 < (st.playfield.size_y : Int))
        && !(occ st.playfield.playfieldContent (v.y + 1) v.x)) = false := by
      rcases hcase with hc | hc
      · have : decide (v.y + 1 < (st.playfield.size_y : Int)) = false := by
          simp only [decide_eq_false_iff_not]
          omega
        simp [this]
      · simp [hc]
    have hall : (st.piece.position.all fun v =>
        decide (v.y + 1 < (st.playfield.size_y : Int))
          && !(occ st.playfield.playfieldContent (v.y + 1) v.x)) = false :=
      List.all_eq_false.mpr ⟨v, hv, by simp [hpv]⟩
    unfold doGravity
    rw [if_neg hnotl, hcg, hall]
  · have hall : (st.piece.position.all fun v =>
        decide (v.y + 1 < (st.playfield.size_y : Int))
          && !(occ st.playfield.playfieldContent (v.y + 1) v.x)) = true :=
      List.all_eq_true.mpr fun v hv => by
        obtain ⟨h1, h2⟩ := hfree v hv
        simp [h1, h2]
    unfold doGravity
    rw [if_neg hnotl, hcg, hall]
  · obtain ⟨v, hv, hvy⟩ := hbottom
    exact ⟨v, hv, by omega⟩

/-- A 2 by 2 grid with a one-cell piece resting on the bottom row. -/
def gravityDemoSt : GameSt := ⟨Playfield.init 2 2, 0, ⟨[⟨0, 1⟩], false, Kind.T⟩⟩

/-- Witness for C3: the bottom-row piece locks in place on the next
gravity step. -/
theorem claim_C3_gravity_step_witness :
    gravityDemoSt.piece.landed = false
    ∧ (∃ v ∈ gravityDemoSt.piece.position,
        ((2 : Nat) : Int) ≤ v.y + 1
        ∨ occ gravityDemoSt.playfield.playfieldContent (v.y + 1) v.x = true)
    ∧ (doGravity gravityDemoSt
        = (gravityDemoSt.playfield.land gravityDemoSt.score
            gravityDemoSt.piece.position (colorCode gravityDemoSt.piece.kind)).map
            fun p => (⟨p.1, p.2, { gravityDemoSt.piece with landed := true }⟩ : GameSt))
    ∧ doGravity gravityDemoSt
        = some ⟨⟨2, 2, [[none, none], [some 6, none]], false⟩, 0,
            ⟨[⟨0, 1⟩], true, Kind.T⟩⟩ := by
  refine ⟨rfl, by decide, ?_, by decide⟩
  exact (claim_C3_gravity_step gravityDemoSt rfl (by decide) rfl (by decide)
    (by decide)).1 (by decide)

theorem dropGo_iter :
    ∀ (fuel : Nat) (s s2 : GameSt), dropGo fuel s = some s2 →
      s2.piece.landed = true
      ∧ ∃ n : Nat, iterGrav n s = some s2
        ∧ ∀ (m : Nat) (sm : GameSt), m < n → iterGrav m s = some sm →
            sm.piece.landed = false := by
  intro fuel
  induction fuel with
  | zero => intro s s2 h; cases h
  | succ fuel ih =>
    intro s s2 h
    simp only [dropGo] at h
    by_cases hl : s.piece.landed = true
    · rw [if_pos hl, Option.some_inj] at h
      subst h
      exact ⟨hl, 0, rfl, fun m sm hm _ => absurd hm (Nat.not_lt_zero m)⟩
    · rw [if_neg hl] at h
      obtain ⟨sm1, hg, hrec⟩ := Option.bind_eq_some.mp h
      obtain ⟨hland2, n, hiter, hpre⟩ := ih sm1 s2 hrec
      refine ⟨hland2, n + 1, by simp only [iterGrav, hg, Option.some_bind, hiter], ?_⟩
      intro m sm hm hit
      cases m with
      | zero =>
        simp only [iterGrav, Option.some_inj] at hit
        subst hit
        simp only [Bool.not_eq_true] at hl
        exact hl
      | succ m =>
        simp only [iterGrav, hg, Option.some_bind] at hit
        exact hpre m sm (by omega) hit

/-- C4: process is a no-op on a landed piece; otherwise it applies the
horizontal move, then the rotate, and then either the drop (which ignores
the gravityDue flag, short-circuiting the tick) or, when no drop was
requested, one gravity step exactly when gravityDue holds; and drop is the
gravity step repeated until the first landing. -/
theorem claim_C4_process_order (st st1 stR : GameSt) (dx : Int) (up sg : Bool)
    (hnl : st.piece.landed = false)
    (hmov : moveHorizontally st dx = some st1)
    (hrot : (if up then rotateStep st1 else some st1) = some stR) :
    (∀ (st0 : GameSt) (sg0 : Bool) (dx0 : Int) (up0 down0 : Bool),
        st0.piece.landed = true → process st0 sg0 dx0 up0 down0 = some st0)
    ∧ process st sg dx up true = drop stR
    ∧ process st sg dx up false = (if sg then doGravity stR else some stR)
    ∧ (∀ s s2 : GameSt, drop s = some s2 →
        s2.piece.landed = true
        ∧ ∃ n : Nat, iterGrav n s = some s2
          ∧ ∀ (m : Nat) (sm : GameSt), m < n → iterGrav m s = some sm →
              sm.piece.landed = false) := by
  have hnotl : ¬(st.piece.landed = true) := by rw [hnl]; exact Bool.false_ne_true
  refine ⟨fun st0 sg0 dx0 up0 down0 h0 => ?_, ?_, ?_, fun s s2 h => ?_⟩
  · unfold process
    rw [if_pos h0]
  · unfold process
    rw [if_neg hnotl, hmov, Option.some_bind, hrot, Option.some_bind]
    rfl
  · unfold process
    rw [if_neg hnotl, hmov, Option.some_bind, hrot, Option.some_bind]
    rfl
  · unfold drop at h
    exact dropGo_iter (dropFuelFor s) s s2 h

/-- A 2 by 2 grid with a one-cell piece at the top. -/
def processDemoSt : GameSt := ⟨Playfield.init 2 2, 0, ⟨[⟨0, 0⟩], false, Kind.T⟩⟩

/-- Witness for C4: on the demo state a drop tick equals drop of the
move/rotate result, the dropped piece is landed, and two gravity steps
realize it. -/
theorem claim_C4_process_order_witness :
    processDemoSt.piece.landed = false
    ∧ moveHorizontally processDemoSt 0 = some processDemoSt
    ∧ process processDemoSt true 0 false true = drop processDemoSt
    ∧ (drop processDemoSt
        = some ⟨⟨2, 2, [[none, none], [some 6, none]], false⟩, 0,
            ⟨[⟨0, 1⟩], true, Kind.T⟩⟩
      → (⟨⟨2, 2, [[none, none], [some 6, none]], false⟩, 0,
            ⟨[⟨0, 1⟩], true, Kind.T⟩⟩ : GameSt).piece.landed = true) := by
  have h := claim_C4_process_order processDemoSt processDemoSt processDemoSt 0
    false true rfl (by decide) rfl
  exact ⟨rfl, by decide, h.2.1, fun hd => (h.2.2.2 processDemoSt _ hd).1⟩

end PyCliTetris
